import Mathlib

/-!
Verification of the edit-secret workflow of `kubectl-edit-secret`
(`pkg/cmd/edit_secret.go`), a kubectl plugin that decodes a secret's
fields, opens them in an external editor and applies the edited result
back to the secret.

Modelling conventions:
* Go's `map[string]string` and `map[string][]byte` are modelled as
  association lists `Smap α := List (String × α)`; a Go map never holds a
  key twice, which appears as `nodupKeys` hypotheses where a theorem needs
  it.  Map assignment `m[k] = v` is `insertKey`, deletion is a `filter`,
  membership `_, ok := m[k]` is `containsKey`/`lookupKey`.
* Go byte slices (`[]byte`) that the program only ever converts to and
  from `string` are modelled as `String`: the Go conversions
  `string(b)`/`[]byte(s)` are mutually inverse byte-for-byte, so both
  sides of the conversion collapse to the identity in the model.
* A text file is modelled as its list of newline-separated lines
  (`Doc := List Line`, `Line := List Char`): `strings.Split(s, "\n")` and
  joining with `"\n"` are mutually inverse, so byte-for-byte equality of
  two files is equality of their line lists.
* The YAML library used by the program (`gopkg.in/yaml.v3`) is outside
  the repository; `yamlMarshal`/`yamlUnmarshal` model its behaviour on
  the only shapes this program produces and consumes, namely flat
  `map[string]string` documents: sorted keys, `key: value` lines for
  single-line values, literal block scalars (`|-`/`|`, 4-space indent)
  for multi-line values, blank lines skipped, and duplicate mapping keys
  rejected as an error (a documented yaml.v3 behaviour change from v2).
-/

set_option autoImplicit false

namespace EditSecret

/-- Association-list model of a Go `map[string]` with string keys. -/
abbrev Smap (α : Type) := List (String × α)

/-- Lookup `m[k]`: the value at the first occurrence of key `k`. -/
def lookupKey {α : Type} : Smap α → String → Option α
  | [], _ => none
  | (k', v) :: t, k => if k' = k then some v else lookupKey t k

/-- Membership test `_, ok := m[k]`. -/
def containsKey {α : Type} (m : Smap α) (k : String) : Bool :=
  (lookupKey m k).isSome

/-- Map assignment `m[k] = v`: replace the binding of `k`, or add one. -/
def insertKey {α : Type} : Smap α → String → α → Smap α
  | [], k, v => [(k, v)]
  | (k', v') :: t, k, v =>
      if k' = k then (k, v) :: t else (k', v') :: insertKey t k v

/-- A well-formed Go map image: no key occurs twice. -/
def nodupKeys {α : Type} (m : Smap α) : Prop :=
  (m.map Prod.fst).Nodup

instance {α : Type} (m : Smap α) : Decidable (nodupKeys m) := by
  unfold nodupKeys; infer_instance

/-- The two stores of a Kubernetes secret that the program touches:
`Data` (`map[string][]byte`, canonical) and `StringData`
(`map[string]string`, legacy write-through store).  Byte values are
modelled as `String` (see the module comment). -/
structure Secret where
  data : Smap String
  stringData : Smap String
deriving DecidableEq, Repr

/-- Errors raised while extracting the decoded field set. -/
inductive ExtractErr where
  /-- `secret %s has no data` -/
  | emptySecretData
  /-- `key %q not found in secret. Available keys: %s`; the payload is
  the sorted list of available keys that the message joins with `", "`. -/
  | keyNotFound (availableKeys : List String)
deriving DecidableEq, Repr

/-- Message text attached to an extraction error, as `fmt.Errorf`
produces it (`secretName`/`key` are the interpolated values). -/
def extractErrMessage (secretName key : String) : ExtractErr → String
  | .emptySecretData => "secret " ++ secretName ++ " has no data"
  | .keyNotFound keys =>
      "key \"" ++ key ++ "\" not found in secret. Available keys: " ++
        String.intercalate ", " keys

/-- Lexicographic order on character lists by code point.  On UTF-8
encoded strings this coincides with Go's bytewise string order (UTF-8
preserves code-point order), the order used by `sort.Strings`. -/
def lexLe : List Char → List Char → Bool
  | [], _ => true
  | _ :: _, [] => false
  | a :: s, b :: t =>
    if a.toNat = b.toNat then lexLe s t else decide (a.toNat < b.toNat)

/-- Bytewise string order, as `sort.Strings` compares strings. -/
def strLe (a b : String) : Bool := lexLe a.data b.data

/-- Go `sort.Strings`: sort a list of keys lexicographically. -/
def sortStrings (l : List String) : List String :=
  l.insertionSort fun a b => strLe a b = true

/-- `extractSingleKey`: look the requested key up in `Data`, then fall
back to `StringData`; when absent from both, fail listing the sorted
keys of `Data`. -/
def extractSingleKey (key : String) (s : Secret) :
    Except ExtractErr (Smap String) :=
  match lookupKey s.data key with
  | some v => .ok [(key, v)]
  | none =>
    match lookupKey s.stringData key with
    | some v => .ok [(key, v)]
    | none => .error (.keyNotFound (sortStrings (s.data.map Prod.fst)))

/-- `extractDecodedData`: in single-key mode delegate to
`extractSingleKey`; otherwise decode every `Data` entry and fail when
the result is empty. -/
def extractDecodedData (key : String) (s : Secret) :
    Except ExtractErr (Smap String) :=
  if key ≠ "" then extractSingleKey key s
  else if s.data.isEmpty then .error .emptySecretData
  else .ok s.data

/-- `hasChanges`: the edited data differs from the original when the
sizes differ or some edited entry is absent or different in the
original. -/
def hasChanges (original edited : Smap String) : Bool :=
  decide (original.length ≠ edited.length) ||
    edited.any fun kv =>
      match lookupKey original kv.1 with
      | none => true
      | some oldVal => decide (oldVal ≠ kv.2)

/-- `applyChanges`: in single-key mode write only the named key (and
only when the edited mapping still has it); in whole-secret mode delete
every original key missing from the edited mapping and write every
edited entry.  `StringData` is set to `nil` in both modes. -/
def applyChanges (s : Secret) (key : String) (original edited : Smap String) :
    Secret :=
  if key ≠ "" then
    match lookupKey edited key with
    | some newVal => { data := insertKey s.data key newVal, stringData := [] }
    | none => { data := s.data, stringData := [] }
  else
    let pruned := s.data.filter fun kv =>
      !(containsKey original kv.1 && !containsKey edited kv.1)
    let written := edited.foldl (fun d kv => insertKey d kv.1 kv.2) pruned
    { data := written, stringData := [] }

/-- `resolveEditor`: explicit `--editor` flag, else `KUBE_EDITOR`, else
`EDITOR`, else the first of the fixed default list found on the
executable search path; `none` models the `no editor found` error. -/
def resolveEditor (flagEditor kubeEditor envEditor : String)
    (onPath : String → Bool) : Option String :=
  if flagEditor ≠ "" then some flagEditor
  else if kubeEditor ≠ "" then some kubeEditor
  else if envEditor ≠ "" then some envEditor
  else ["vim", "vi", "nano", "notepad"].find? onPath

/-- A line of a text file, as a list of characters (no newline). -/
abbrev Line := List Char

/-- A text file, as its list of newline-separated lines: splitting on
`"\n"` and joining with `"\n"` are mutually inverse, so byte equality
of files is equality of line lists. -/
abbrev Doc := List Line

/-- Whitespace as trimmed by `strings.TrimSpace` (restricted to the
ASCII space characters; the claims never involve Unicode spaces). -/
def wsChar (c : Char) : Bool :=
  c = ' ' || c = '\t' || c = '\n' || c = '\r'

/-- Left part of `strings.TrimSpace`. -/
def trimLeft (l : Line) : Line := l.dropWhile wsChar

/-- Right part of `strings.TrimSpace`. -/
def trimRight : Line → Line
  | [] => []
  | c :: t =>
    match trimRight t with
    | [] => if wsChar c then [] else [c]
    | r => c :: r

/-- `strings.TrimSpace`. -/
def trimSpace (l : Line) : Line := trimRight (trimLeft l)

/-- Does a line start with a space (i.e. carry YAML indentation)? -/
def startsWithSpace : Line → Bool
  | [] => false
  | c :: _ => c = ' '

/-- The filter of `parseEditedContent`:
`strings.HasPrefix(strings.TrimSpace(line), "#")`. -/
def isCommentLine (l : Line) : Bool :=
  ['#'].isPrefixOf (trimSpace l)

/-- The comment-stripping pass of `parseEditedContent`: keep every line
whose trimmed content does not start with `#`. -/
def stripComments (d : Doc) : Doc :=
  d.filter fun l => !isCommentLine l

/-- Sort a field mapping by key, as `yaml.Marshal` orders the keys of a
`map[string]string` (modelled with plain bytewise order; yaml.v3's
comparator additionally orders embedded digit runs numerically, which
coincides with bytewise order on the digit-free keys used here). -/
def insertPairLe (p : String × String) : Smap String → Smap String
  | [] => [p]
  | q :: t => if strLe p.1 q.1 then p :: q :: t else q :: insertPairLe p t

/-- Insertion sort of a field mapping by key. -/
def sortPairs : Smap String → Smap String
  | [] => []
  | p :: t => insertPairLe p (sortPairs t)

/-- Split a value on newlines, for rendering a literal block scalar. -/
def splitOnNewline : List Char → List Line
  | [] => [[]]
  | c :: t =>
    match splitOnNewline t with
    | [] => [[c]]
    | h :: r => if c = '\n' then [] :: h :: r else (c :: h) :: r

/-- Indent a block-scalar content line by yaml.v3's default 4 spaces
(empty lines stay empty). -/
def indentBlockLine (l : Line) : Line :=
  match l with
  | [] => []
  | _ => ' ' :: ' ' :: ' ' :: ' ' :: l

/-- Render one `key: value` entry as `yaml.Marshal` does for a flat
string map: a plain `key: value` line for single-line values, a literal
block scalar (`|-` when the value has no trailing newline, `|` when it
has one) with 4-space indented content lines otherwise. -/
def marshalEntry (k v : String) : Doc :=
  if '\n' ∈ v.data then
    if v.data.getLast? = some '\n' then
      (k.data ++ [':', ' ', '|']) ::
        (splitOnNewline v.data.dropLast).map indentBlockLine
    else
      (k.data ++ [':', ' ', '|', '-']) ::
        (splitOnNewline v.data).map indentBlockLine
  else
    [k.data ++ ':' :: ' ' :: v.data]

/-- Entry lines of `yaml.Marshal` applied to an (already sorted) field
mapping. -/
def yamlMarshalList : Smap String → Doc
  | [] => []
  | (k, v) :: t => marshalEntry k v ++ yamlMarshalList t

/-- `yaml.Marshal` of a flat `map[string]string`: sorted keys, one
entry after another, modelling `gopkg.in/yaml.v3`. -/
def yamlMarshal (m : Smap String) : Doc :=
  yamlMarshalList (sortPairs m)

/-- Split a line at its first `:`, yielding the raw key characters and
everything after the colon; `none` when the line has no colon at all
(such a line is not a mapping entry and makes the document fail to
unmarshal into a map). -/
def splitEntryChars : List Char → Option (List Char × List Char)
  | [] => none
  | c :: t =>
    if c = ':' then some ([], t)
    else
      match splitEntryChars t with
      | none => none
      | some (k, r) => some (c :: k, r)

/-- Leading-space count of the first non-blank line, the indentation a
YAML literal block scalar is measured against. -/
def blockIndent (ls : Doc) : Nat :=
  match ls.find? (fun l => !(trimSpace l).isEmpty) with
  | none => 0
  | some l => (l.takeWhile (fun c => c = ' ')).length

/-- Continuation lines of a literal block scalar: blank lines and
indented lines. -/
def blockCont (l : Line) : Bool :=
  startsWithSpace l || (trimSpace l).isEmpty

/-- Content of a literal block scalar: strip the measured indentation,
drop trailing blank lines, join with newlines; `clip` (`|`) keeps one
final newline, strip (`|-`) keeps none. -/
def parseBlock (ls : Doc) (clip : Bool) : List Char :=
  let body := (ls.reverse.dropWhile fun l => (trimSpace l).isEmpty).reverse
  let ind := blockIndent ls
  let joined := match (body.map fun l => l.drop ind) with
    | [] => []
    | h :: t => t.foldl (fun acc l => acc ++ '\n' :: l) h
  if clip then joined ++ ['\n'] else joined

/-- Fuel-indexed worker for `yamlUnmarshal`: one top-level mapping
entry (or skipped blank line) per step, duplicate keys rejected as
`gopkg.in/yaml.v3` does. -/
def yamlUnmarshalFuel : Nat → Doc → Smap String → Option (Smap String)
  | _, [], acc => some acc
  | 0, _ :: _, _ => none
  | Nat.succ fuel, l :: rest, acc =>
    if (trimSpace l).isEmpty then yamlUnmarshalFuel fuel rest acc
    else if startsWithSpace l then none
    else
      match splitEntryChars l with
      | none => none
      | some (kRaw, after) =>
        let kChars := trimSpace kRaw
        if kChars.isEmpty then none
        else
          let k := String.mk kChars
          if containsKey acc k then none
          else
            match after with
            | [] => yamlUnmarshalFuel fuel rest (acc ++ [(k, "")])
            | c :: _ =>
              if c = ' ' then
                let rv := trimSpace after
                if rv = ['|', '-'] || rv = ['|'] then
                  let blk := rest.takeWhile blockCont
                  yamlUnmarshalFuel fuel (rest.drop blk.length)
                    (acc ++ [(k, String.mk (parseBlock blk (rv = ['|'])))])
                else
                  yamlUnmarshalFuel fuel rest (acc ++ [(k, String.mk rv)])
              else none

/-- `yaml.Unmarshal` of a document into a `map[string]string`,
modelling `gopkg.in/yaml.v3` on the flat documents this program deals
with: blank lines are skipped, entries are `key: value` or literal
block scalars, a duplicate mapping key is an error, and an empty
document leaves the map empty. -/
def yamlUnmarshal (d : Doc) : Option (Smap String) :=
  yamlUnmarshalFuel d.length d []

/-- `parseEditedContent`: drop every line whose trimmed content starts
with `#`, then unmarshal what remains. -/
def parseEditedContent (d : Doc) : Option (Smap String) :=
  yamlUnmarshal (stripComments d)

/-- The comment header of `createEditContent`, one list entry per
line. -/
def headerLines (secretName ns : String) : Doc :=
  [("# Editing secret: " ++ secretName).data,
   ("# Namespace: " ++ ns).data,
   "# ".data,
   "# Modify the values below. Lines starting with '#' are ignored.".data,
   "# The values shown are DECODED (plain text).".data,
   "# They will be automatically base64-encoded when saved.".data,
   "#".data,
   "# Save and exit to apply changes. Exit without saving to cancel.".data,
   "#".data]

/-- `createEditContent`: the header comment block followed by the YAML
rendering of the decoded data; the final `[]` is the empty fragment
after the trailing newline of `yaml.Marshal`'s output. -/
def createEditContent (secretName ns : String) (decodedData : Smap String) :
    Doc :=
  headerLines secretName ns ++ yamlMarshal decodedData ++ [[]]

/-- Outcome of one workflow invocation (`Run` plus `editInEditor`).
`applied` is the only outcome that performs an `Update` call on the
secret repository, and it carries the updated secret. -/
inductive Outcome where
  | errEmptyData
  | errKeyNotFound (availableKeys : List String)
  | cancelled
  | errParse
  | noChanges
  | applied (updated : Secret)
deriving DecidableEq, Repr

/-- The edit workflow (`Run` with `editInEditor` inlined): extract the
decoded data, render the edit document, compare the editor's output
byte-for-byte against it (equal means cancelled), parse the edited
document, compare the parsed mapping against the original (equal means
no changes), and otherwise apply.  `afterContent` is the temp file's
content when the editor exits. -/
def run (secretName ns key : String) (s : Secret) (afterContent : Doc) :
    Outcome :=
  match extractDecodedData key s with
  | .error .emptySecretData => .errEmptyData
  | .error (.keyNotFound ks) => .errKeyNotFound ks
  | .ok decodedData =>
    if afterContent = createEditContent secretName ns decodedData then
      .cancelled
    else
      match parseEditedContent afterContent with
      | none => .errParse
      | some editedData =>
        if hasChanges decodedData editedData then
          .applied (applyChanges s key decodedData editedData)
        else
          .noChanges

/-- Plain scalars of the model: rendered unquoted by `yaml.Marshal` and
parsed back verbatim.  Restricted to nonempty words of letters,
hyphens and underscores starting with a letter that are not YAML
reserved words; these need no escaping or quoting in YAML. -/
def plainChar (c : Char) : Bool :=
  c.isAlpha || c = '-' || c = '_'

/-- YAML 1.1 words that resolve to booleans or null and would be
quoted by the encoder (compared case-insensitively). -/
def reservedScalar (s : String) : Bool :=
  s.data.map Char.toLower ∈
    ["true", "false", "yes", "no", "on", "off", "null", "y", "n"].map
      String.data

/-- A scalar `yaml.Marshal` renders plainly (see `plainChar`). -/
def plainScalar (s : String) : Bool :=
  (match s.data with
   | [] => false
   | c :: _ => c.isAlpha) &&
  s.data.all plainChar && !reservedScalar s

theorem lookupKey_insertKey_self {α : Type} (m : Smap α) (k : String) (v : α) :
    lookupKey (insertKey m k v) k = some v := by
  induction m with
  | nil => simp [insertKey, lookupKey]
  | cons kv t ih =>
    obtain ⟨k', v'⟩ := kv
    by_cases h : k' = k <;> simp [insertKey, lookupKey, h, ih]

theorem lookupKey_insertKey_ne {α : Type} (m : Smap α) (k k' : String) (v : α)
    (h : k' ≠ k) : lookupKey (insertKey m k v) k' = lookupKey m k' := by
  induction m with
  | nil => simp [insertKey, lookupKey, Ne.symm h]
  | cons kv t ih =>
    obtain ⟨k₀, v₀⟩ := kv
    by_cases h₀ : k₀ = k
    · subst h₀
      simp [insertKey, lookupKey, Ne.symm h]
    · simp [insertKey, lookupKey, h₀, ih]

theorem lookupKey_filter_keyPred {α : Type} (m : Smap α) (p : String → Bool)
    (k : String) :
    lookupKey (m.filter fun kv => p kv.1) k =
      if p k then lookupKey m k else none := by
  induction m with
  | nil => simp [lookupKey]
  | cons kv t ih =>
    obtain ⟨k', v'⟩ := kv
    by_cases hk : k' = k
    · subst hk
      by_cases hp : p k' <;> simp [List.filter, lookupKey, hp, ih]
    · by_cases hp : p k' <;> simp [List.filter, lookupKey, hp, hk, ih]

theorem lookupKey_eq_none_iff {α : Type} (m : Smap α) (k : String) :
    lookupKey m k = none ↔ k ∉ m.map Prod.fst := by
  induction m with
  | nil => simp [lookupKey]
  | cons kv t ih =>
    obtain ⟨k', v'⟩ := kv
    by_cases h : k' = k
    · subst h
      simp [lookupKey]
    · simp [lookupKey, h, ih, Ne.symm h]

theorem lookupKey_eq_some_of_mem {α : Type} (m : Smap α) (k : String) (v : α)
    (hnd : nodupKeys m) (hmem : (k, v) ∈ m) : lookupKey m k = some v := by
  induction m with
  | nil => simp at hmem
  | cons kv t ih =>
    obtain ⟨k', v'⟩ := kv
    unfold nodupKeys at hnd
    simp only [List.map_cons, List.nodup_cons] at hnd
    rcases List.mem_cons.mp hmem with h | h
    · injection h with h1 h2
      subst h1
      subst h2
      simp [lookupKey]
    · have hk : k' ≠ k := by
        rintro rfl
        exact hnd.1 (List.mem_map.mpr ⟨(k', v), h, rfl⟩)
      simp [lookupKey, hk, ih hnd.2 h]

theorem lookupKey_foldl_insertKey {α : Type} (e : Smap α) (d : Smap α)
    (k : String) (hnd : nodupKeys e) :
    lookupKey (e.foldl (fun m kv => insertKey m kv.1 kv.2) d) k =
      match lookupKey e k with
      | some v => some v
      | none => lookupKey d k := by
  induction e generalizing d with
  | nil => simp [lookupKey]
  | cons kv t ih =>
    obtain ⟨k₀, v₀⟩ := kv
    unfold nodupKeys at hnd
    simp only [List.map_cons, List.nodup_cons] at hnd
    simp only [List.foldl_cons]
    rw [ih _ hnd.2]
    by_cases hk : k₀ = k
    · subst hk
      have ht : lookupKey t k₀ = none :=
        (lookupKey_eq_none_iff t k₀).mpr hnd.1
      simp [lookupKey, ht, lookupKey_insertKey_self]
    · simp only [lookupKey, if_neg hk]
      cases lookupKey t k with
      | some v => simp
      | none => simp [lookupKey_insertKey_ne _ _ _ _ (fun h => hk h.symm)]

theorem lookupKey_eq_none_of_not_contains {α : Type} (m : Smap α) (k : String)
    (hk : containsKey m k = false) : lookupKey m k = none := by
  unfold containsKey at hk
  cases h : lookupKey m k with
  | none => rfl
  | some w => rw [h] at hk; simp at hk

theorem nodupKeys_append_singleton {α : Type} (m : Smap α) (k : String) (v : α)
    (hnd : nodupKeys m) (hk : containsKey m k = false) :
    nodupKeys (m ++ [(k, v)]) := by
  have hkm : k ∉ m.map Prod.fst :=
    (lookupKey_eq_none_iff m k).mp (lookupKey_eq_none_of_not_contains m k hk)
  unfold nodupKeys at *
  simp only [List.map_append, List.map_cons, List.map_nil]
  refine List.Nodup.append hnd (List.nodup_singleton k) ?_
  intro x hx hx2
  simp only [List.mem_singleton] at hx2
  subst hx2
  exact hkm hx

theorem lookupKey_foldl_insertKey_of_none {α : Type} (e : Smap α) (d : Smap α)
    (k : String) (h : lookupKey e k = none) :
    lookupKey (e.foldl (fun m kv => insertKey m kv.1 kv.2) d) k = lookupKey d k := by
  induction e generalizing d with
  | nil => rfl
  | cons kv t ih =>
    obtain ⟨k₀, v₀⟩ := kv
    by_cases hk : k₀ = k
    · simp [lookupKey, hk] at h
    · simp only [lookupKey, if_neg hk] at h
      simp only [List.foldl_cons]
      rw [ih _ h]
      exact lookupKey_insertKey_ne _ _ _ _ (fun hh => hk hh.symm)

theorem lexLe_total : ∀ s t, lexLe s t = true ∨ lexLe t s = true := by
  intro s
  induction s with
  | nil => intro t; left; rfl
  | cons a s' ih =>
    intro t
    cases t with
    | nil => right; rfl
    | cons b t' =>
      by_cases h : a.toNat = b.toNat
      · rcases ih t' with h' | h'
        · left; simp [lexLe, h, h']
        · right; simp [lexLe, h.symm, h']
      · rcases Nat.lt_trichotomy a.toNat b.toNat with h1 | h1 | h1
        · left; simp [lexLe, h, h1]
        · exact absurd h1 h
        · right
          have hba : ¬b.toNat = a.toNat := fun hh => h hh.symm
          simp [lexLe, hba, h1]

theorem lexLe_trans : ∀ s t u, lexLe s t = true → lexLe t u = true →
    lexLe s u = true := by
  intro s
  induction s with
  | nil => intro t u _ _; rfl
  | cons a s' ih =>
    intro t u h1 h2
    cases t with
    | nil => simp [lexLe] at h1
    | cons b t' =>
      cases u with
      | nil => simp [lexLe] at h2
      | cons c u' =>
        by_cases hab : a.toNat = b.toNat <;> by_cases hbc : b.toNat = c.toNat
        · simp only [lexLe, if_pos hab] at h1
          simp only [lexLe, if_pos hbc] at h2
          simp [lexLe, hab.trans hbc, ih t' u' h1 h2]
        · simp only [lexLe, if_neg hbc, decide_eq_true_eq] at h2
          have hac : a.toNat < c.toNat := hab ▸ h2
          simp [lexLe, Nat.ne_of_lt hac, hac]
        · simp only [lexLe, if_neg hab, decide_eq_true_eq] at h1
          have hac : a.toNat < c.toNat := hbc ▸ h1
          simp [lexLe, Nat.ne_of_lt hac, hac]
        · simp only [lexLe, if_neg hab, decide_eq_true_eq] at h1
          simp only [lexLe, if_neg hbc, decide_eq_true_eq] at h2
          have hac : a.toNat < c.toNat := h1.trans h2
          simp [lexLe, Nat.ne_of_lt hac, hac]

instance : IsTotal String fun a b => strLe a b = true :=
  ⟨fun a b => lexLe_total a.data b.data⟩

instance : IsTrans String fun a b => strLe a b = true :=
  ⟨fun a b c => lexLe_trans a.data b.data c.data⟩

theorem sortStrings_sorted (l : List String) :
    (sortStrings l).Sorted fun a b => strLe a b = true :=
  List.sorted_insertionSort _ l

theorem sortStrings_perm (l : List String) : (sortStrings l).Perm l :=
  List.perm_insertionSort _ l

theorem insertPairLe_perm (p : String × String) (l : Smap String) :
    (insertPairLe p l).Perm (p :: l) := by
  induction l with
  | nil => exact List.Perm.refl _
  | cons q t ih =>
    unfold insertPairLe
    by_cases h : strLe p.1 q.1
    · rw [if_pos h]
    · rw [if_neg h]
      exact (ih.cons q).trans (List.Perm.swap p q t)

theorem sortPairs_perm (m : Smap String) : (sortPairs m).Perm m := by
  induction m with
  | nil => exact List.Perm.refl _
  | cons p t ih =>
    exact (insertPairLe_perm p (sortPairs t)).trans (ih.cons p)

theorem stringMk_data (s : String) : String.mk s.data = s := rfl

theorem nodupKeys_of_perm {a b : Smap String} (hp : a.Perm b)
    (hnd : nodupKeys b) : nodupKeys a :=
  ((hp.map Prod.fst).nodup_iff).mpr hnd

theorem mem_of_lookupKey_eq_some {α : Type} (m : Smap α) (k : String) (v : α)
    (h : lookupKey m k = some v) : (k, v) ∈ m := by
  induction m with
  | nil => simp [lookupKey] at h
  | cons kv t ih =>
    obtain ⟨k', v'⟩ := kv
    by_cases hk : k' = k
    · subst hk
      simp only [lookupKey, if_true, eq_self_iff_true, Option.some.injEq] at h
      subst h
      exact List.mem_cons_self _ _
    · exact List.mem_cons_of_mem _ (ih (by simpa [lookupKey, hk] using h))

theorem lookupKey_eq_of_perm (o e : Smap String) (hnd : nodupKeys o)
    (hp : e.Perm o) : ∀ k, lookupKey e k = lookupKey o k := by
  intro k
  have hnde : nodupKeys e := nodupKeys_of_perm hp hnd
  cases h : lookupKey o k with
  | some v =>
    exact lookupKey_eq_some_of_mem e k v hnde
      (hp.mem_iff.mpr (mem_of_lookupKey_eq_some o k v h))
  | none =>
    rw [lookupKey_eq_none_iff] at h ⊢
    intro hk
    exact h (((hp.map Prod.fst).mem_iff).mp hk)

theorem trimLeft_cons_of_not_ws (c : Char) (l : Line) (h : wsChar c = false) :
    trimLeft (c :: l) = c :: l := by
  simp [trimLeft, List.dropWhile_cons, h]

theorem trimRight_all_not_ws : ∀ l : Line, (∀ c ∈ l, wsChar c = false) →
    trimRight l = l := by
  intro l
  induction l with
  | nil => intro _; rfl
  | cons c t ih =>
    intro h
    have ht := ih fun x hx => h x (List.mem_cons_of_mem _ hx)
    unfold trimRight
    rw [ht]
    cases t with
    | nil => simp [h c (List.mem_cons_self _ _)]
    | cons d t' => rfl

theorem trimRight_append_all_not_ws (pre l : Line) (hl : l ≠ [])
    (h : ∀ c ∈ l, wsChar c = false) : trimRight (pre ++ l) = pre ++ l := by
  induction pre with
  | nil => exact trimRight_all_not_ws l h
  | cons c pre' ih =>
    show trimRight (c :: (pre' ++ l)) = c :: (pre' ++ l)
    unfold trimRight
    rw [ih]
    obtain ⟨x, xs, hxl⟩ :=
      List.exists_cons_of_ne_nil (List.append_ne_nil_of_right_ne_nil pre' hl)
    rw [hxl]

theorem trimRight_cons_of_not_ws (c : Char) (t : Line) (h : wsChar c = false) :
    ∃ t', trimRight (c :: t) = c :: t' := by
  unfold trimRight
  cases ht : trimRight t with
  | nil => exact ⟨[], by simp [h]⟩
  | cons d r => exact ⟨d :: r, rfl⟩

theorem isCommentLine_cons_hash (t : Line) : isCommentLine ('#' :: t) = true := by
  unfold isCommentLine trimSpace
  rw [trimLeft_cons_of_not_ws _ _ (by decide)]
  obtain ⟨t', ht'⟩ := trimRight_cons_of_not_ws '#' t (by decide)
  rw [ht']
  simp [List.isPrefixOf]

theorem isCommentLine_hash_string_append (pre s : String)
    (hp : ∃ t, pre.data = '#' :: t) :
    isCommentLine ((pre ++ s).data) = true := by
  obtain ⟨t, ht⟩ := hp
  have : (pre ++ s).data = '#' :: (t ++ s.data) := by
    show pre.data ++ s.data = _
    rw [ht]
    rfl
  rw [this]
  exact isCommentLine_cons_hash _

theorem splitEntryChars_append_colon (l r : List Char)
    (h : ∀ c ∈ l, c ≠ ':') : splitEntryChars (l ++ ':' :: r) = some (l, r) := by
  induction l with
  | nil => simp [splitEntryChars]
  | cons c t ih =>
    have hc : ¬(c = ':') := h c (List.mem_cons_self _ _)
    have ih' := ih fun x hx => h x (List.mem_cons_of_mem _ hx)
    show splitEntryChars (c :: (t ++ ':' :: r)) = _
    unfold splitEntryChars
    rw [if_neg hc, ih']

theorem plainScalar_spec (s : String) (h : plainScalar s = true) :
    (∃ c t, s.data = c :: t ∧ c.isAlpha = true) ∧
      ∀ c ∈ s.data, plainChar c = true := by
  unfold plainScalar at h
  simp only [Bool.and_eq_true, List.all_eq_true] at h
  obtain ⟨⟨h1, h2⟩, _⟩ := h
  cases hs : s.data with
  | nil => rw [hs] at h1; simp at h1
  | cons c t =>
    rw [hs] at h1 h2
    exact ⟨⟨c, t, rfl, h1⟩, h2⟩

theorem plainChar_not_ws (c : Char) (h : plainChar c = true) :
    wsChar c = false := by
  cases hw : wsChar c
  · rfl
  · exfalso
    simp only [wsChar, Bool.or_eq_true, decide_eq_true_eq] at hw
    rcases hw with ((h1 | h1) | h1) | h1 <;> subst h1 <;>
      exact absurd h (by decide)

theorem plainChar_ne (c : Char) (h : plainChar c = true) :
    c ≠ ':' ∧ c ≠ '#' ∧ c ≠ '\n' ∧ c ≠ '|' ∧ c ≠ ' ' := by
  refine ⟨?_, ?_, ?_, ?_, ?_⟩ <;> (rintro rfl; exact absurd h (by decide))

theorem isAlpha_ne_special (c : Char) (h : c.isAlpha = true) :
    c ≠ '#' ∧ c ≠ ' ' ∧ c ≠ '|' ∧ wsChar c = false := by
  refine ⟨?_, ?_, ?_, ?_⟩
  · rintro rfl; exact absurd h (by decide)
  · rintro rfl; exact absurd h (by decide)
  · rintro rfl; exact absurd h (by decide)
  · cases hw : wsChar c
    · rfl
    · exfalso
      simp only [wsChar, Bool.or_eq_true, decide_eq_true_eq] at hw
      rcases hw with ((h1 | h1) | h1) | h1 <;> subst h1 <;>
        exact absurd h (by decide)

theorem marshalEntry_plain (k v : String) (hv : plainScalar v = true) :
    marshalEntry k v = [k.data ++ ':' :: ' ' :: v.data] := by
  unfold marshalEntry
  rw [if_neg]
  intro hm
  exact absurd ((plainScalar_spec v hv).2 '\n' hm) (by decide)

theorem entryLine_facts (k v : String) (hk : plainScalar k = true)
    (hv : plainScalar v = true) :
    (trimSpace (k.data ++ ':' :: ' ' :: v.data)).isEmpty = false ∧
    startsWithSpace (k.data ++ ':' :: ' ' :: v.data) = false ∧
    splitEntryChars (k.data ++ ':' :: ' ' :: v.data) =
      some (k.data, ' ' :: v.data) ∧
    trimSpace k.data = k.data ∧
    trimSpace (' ' :: v.data) = v.data ∧
    isCommentLine (k.data ++ ':' :: ' ' :: v.data) = false := by
  obtain ⟨⟨ck, tk, hks, hka⟩, hkall⟩ := plainScalar_spec k hk
  obtain ⟨⟨cv, tv, hvs, hva⟩, hvall⟩ := plainScalar_spec v hv
  obtain ⟨hkh, hksp, hkbar, hkws⟩ := isAlpha_ne_special ck hka
  obtain ⟨hvh, hvsp, hvbar, hvws⟩ := isAlpha_ne_special cv hva
  have hvne : v.data ≠ [] := by rw [hvs]; simp
  have hvnws : ∀ c ∈ v.data, wsChar c = false :=
    fun c hc => plainChar_not_ws c (hvall c hc)
  have hline : trimSpace (k.data ++ ':' :: ' ' :: v.data) =
      k.data ++ ':' :: ' ' :: v.data := by
    unfold trimSpace
    rw [hks, List.cons_append, trimLeft_cons_of_not_ws _ _ hkws,
      ← List.cons_append, ← hks,
      show k.data ++ ':' :: ' ' :: v.data =
        (k.data ++ [':', ' ']) ++ v.data from by simp,
      trimRight_append_all_not_ws _ _ hvne hvnws]
  refine ⟨?_, ?_, ?_, ?_, ?_, ?_⟩
  · rw [hline, hks]
    simp
  · rw [hks, List.cons_append]
    simp [startsWithSpace, hksp]
  · exact splitEntryChars_append_colon _ _
      fun c hc => (plainChar_ne c (hkall c hc)).1
  · unfold trimSpace
    rw [hks, trimLeft_cons_of_not_ws _ _ hkws, ← hks,
      trimRight_all_not_ws _ fun c hc => plainChar_not_ws c (hkall c hc)]
  · unfold trimSpace
    rw [show trimLeft (' ' :: v.data) = trimLeft v.data from by
        simp [trimLeft, List.dropWhile_cons, (by decide : wsChar ' ' = true)],
      show trimLeft v.data = v.data from by
        rw [hvs]; exact trimLeft_cons_of_not_ws _ _ hvws,
      trimRight_all_not_ws _ hvnws]
  · unfold isCommentLine
    rw [hline, hks, List.cons_append]
    have : ('#' == ck) = false := by
      cases hb : ('#' == ck)
      · rfl
      · exact absurd (eq_of_beq hb).symm hkh
    simp [List.isPrefixOf, this]

theorem containsKey_eq_false_of_not_mem {α : Type} (m : Smap α) (k : String)
    (h : k ∉ m.map Prod.fst) : containsKey m k = false := by
  unfold containsKey
  rw [(lookupKey_eq_none_iff m k).mpr h]
  rfl

theorem yamlUnmarshalFuel_entries :
    ∀ (l acc : Smap String) (suffix : Doc) (f : Nat),
      (∀ p ∈ l, plainScalar p.1 = true ∧ plainScalar p.2 = true) →
      nodupKeys (acc ++ l) →
      yamlUnmarshalFuel (l.length + f) (yamlMarshalList l ++ suffix) acc =
        yamlUnmarshalFuel f suffix (acc ++ l) := by
  intro l
  induction l with
  | nil => intro acc suffix f _ _; simp [yamlMarshalList]
  | cons p t ih =>
    obtain ⟨k, v⟩ := p
    intro acc suffix f hpl hnd
    obtain ⟨hk, hv⟩ := hpl (k, v) (List.mem_cons_self _ _)
    obtain ⟨hemp, hsp, hsplit, hktrim, hvtrim, _⟩ := entryLine_facts k v hk hv
    obtain ⟨⟨ck, tk, hks, hka⟩, _⟩ := plainScalar_spec k hk
    have hkd : k.data ≠ [] := by rw [hks]; simp
    have hknotacc : k ∉ acc.map Prod.fst := by
      unfold nodupKeys at hnd
      rw [List.map_append] at hnd
      have hd := (List.nodup_append.mp hnd).2.2
      intro hmem
      exact hd hmem (by simp)
    have hcont : containsKey acc k = false :=
      containsKey_eq_false_of_not_mem acc k hknotacc
    obtain ⟨⟨cv, tv, hvs, hva⟩, _⟩ := plainScalar_spec v hv
    have hnb1 : v.data ≠ ['|', '-'] := by
      rw [hvs]
      intro hcon
      injection hcon with h1 _
      exact (isAlpha_ne_special cv hva).2.2.1 h1
    have hnb2 : v.data ≠ ['|'] := by
      rw [hvs]
      intro hcon
      injection hcon with h1 _
      exact (isAlpha_ne_special cv hva).2.2.1 h1
    rw [show yamlMarshalList ((k, v) :: t) = marshalEntry k v ++ yamlMarshalList t
        from rfl,
      marshalEntry_plain k v hv,
      show ((k, v) :: t : Smap String).length + f = Nat.succ (t.length + f) from by
        simp [List.length_cons]
        omega]
    simp only [List.cons_append, List.nil_append]
    rw [show yamlUnmarshalFuel (Nat.succ (t.length + f))
        ((k.data ++ ':' :: ' ' :: v.data) :: (yamlMarshalList t ++ suffix)) acc =
      (if (trimSpace (k.data ++ ':' :: ' ' :: v.data)).isEmpty then
        yamlUnmarshalFuel (t.length + f) (yamlMarshalList t ++ suffix) acc
      else if startsWithSpace (k.data ++ ':' :: ' ' :: v.data) then none
      else
        match splitEntryChars (k.data ++ ':' :: ' ' :: v.data) with
        | none => none
        | some (kRaw, after) =>
          let kChars := trimSpace kRaw
          if kChars.isEmpty then none
          else
            let key := String.mk kChars
            if containsKey acc key then none
            else
              match after with
              | [] => yamlUnmarshalFuel (t.length + f) (yamlMarshalList t ++ suffix)
                  (acc ++ [(key, "")])
              | c :: _ =>
                if c = ' ' then
                  let rv := trimSpace after
                  if rv = ['|', '-'] || rv = ['|'] then
                    let blk := (yamlMarshalList t ++ suffix).takeWhile blockCont
                    yamlUnmarshalFuel (t.length + f)
                      ((yamlMarshalList t ++ suffix).drop blk.length)
                      (acc ++ [(key, String.mk (parseBlock blk (rv = ['|'])))])
                  else
                    yamlUnmarshalFuel (t.length + f) (yamlMarshalList t ++ suffix)
                      (acc ++ [(key, String.mk rv)])
                else none) from rfl]
    rw [hemp]
    simp only [Bool.false_eq_true, if_false]
    rw [hsp]
    simp only [Bool.false_eq_true, if_false]
    rw [hsplit]
    simp only [hktrim, stringMk_data, hvtrim]
    simp only [hcont, hkd, hnb1, hnb2, Bool.false_eq_true, if_false,
      List.isEmpty_eq_true, if_true, decide_eq_true_eq, Bool.or_self,
      decide_False, Bool.or_false, if_false]
    rw [ih (acc ++ [(k, v)]) suffix f
      (fun p hp => hpl p (List.mem_cons_of_mem _ hp))
      (by rw [← List.append_cons]; exact hnd),
      ← List.append_cons]

theorem isCommentLine_nil : isCommentLine [] = false := by decide

theorem stripComments_yamlMarshalList (l : Smap String)
    (hpl : ∀ p ∈ l, plainScalar p.1 = true ∧ plainScalar p.2 = true) :
    stripComments (yamlMarshalList l) = yamlMarshalList l := by
  induction l with
  | nil => rfl
  | cons p t ih =>
    obtain ⟨k, v⟩ := p
    obtain ⟨hk, hv⟩ := hpl (k, v) (List.mem_cons_self _ _)
    obtain ⟨_, _, _, _, _, hnc⟩ := entryLine_facts k v hk hv
    rw [show yamlMarshalList ((k, v) :: t) = marshalEntry k v ++ yamlMarshalList t
        from rfl,
      marshalEntry_plain k v hv]
    unfold stripComments
    rw [List.cons_append, List.filter_cons]
    simp only [hnc, Bool.not_false, if_true, List.nil_append]
    exact congrArg _ (ih fun p hp => hpl p (List.mem_cons_of_mem _ hp))

theorem stripComments_headerLines (n ns : String) :
    stripComments (headerLines n ns) = [] := by
  have h1 : isCommentLine (("# Editing secret: " ++ n).data) = true :=
    isCommentLine_hash_string_append _ _ ⟨" Editing secret: ".data, by decide⟩
  have h2 : isCommentLine (("# Namespace: " ++ ns).data) = true :=
    isCommentLine_hash_string_append _ _ ⟨" Namespace: ".data, by decide⟩
  unfold stripComments headerLines
  simp only [List.filter_cons, List.filter_nil, h1, h2, Bool.not_true,
    Bool.false_eq_true, if_false,
    (by decide : isCommentLine ("# ".data) = true),
    (by decide : isCommentLine
      ("# Modify the values below. Lines starting with '#' are ignored.".data) =
        true),
    (by decide : isCommentLine ("# The values shown are DECODED (plain text).".data) =
      true),
    (by decide : isCommentLine
      ("# They will be automatically base64-encoded when saved.".data) = true),
    (by decide : isCommentLine ("#".data) = true),
    (by decide : isCommentLine
      ("# Save and exit to apply changes. Exit without saving to cancel.".data) =
        true)]

theorem yamlMarshalList_plain_length (l : Smap String)
    (hpl : ∀ p ∈ l, plainScalar p.1 = true ∧ plainScalar p.2 = true) :
    (yamlMarshalList l).length = l.length := by
  induction l with
  | nil => rfl
  | cons p t ih =>
    obtain ⟨k, v⟩ := p
    rw [show yamlMarshalList ((k, v) :: t) = marshalEntry k v ++ yamlMarshalList t
        from rfl,
      marshalEntry_plain k v (hpl (k, v) (List.mem_cons_self _ _)).2]
    simp [ih fun p hp => hpl p (List.mem_cons_of_mem _ hp)]

theorem parse_createEditContent (n ns : String) (F : Smap String)
    (hnd : nodupKeys F)
    (hpl : ∀ p ∈ F, plainScalar p.1 = true ∧ plainScalar p.2 = true) :
    parseEditedContent (createEditContent n ns F) = some (sortPairs F) := by
  have hplS : ∀ p ∈ sortPairs F, plainScalar p.1 = true ∧ plainScalar p.2 = true :=
    fun p hp => hpl p ((sortPairs_perm F).subset hp)
  have hndS : nodupKeys (sortPairs F) := nodupKeys_of_perm (sortPairs_perm F) hnd
  unfold parseEditedContent createEditContent yamlMarshal
  rw [show stripComments
        (headerLines n ns ++ yamlMarshalList (sortPairs F) ++ [[]]) =
      stripComments (headerLines n ns) ++
        (stripComments (yamlMarshalList (sortPairs F)) ++ stripComments [[]])
      from by simp [stripComments, List.filter_append, List.append_assoc],
    stripComments_headerLines, stripComments_yamlMarshalList _ hplS,
    List.nil_append,
    show stripComments [[]] = [[]] from by decide]
  unfold yamlUnmarshal
  have hlen : (yamlMarshalList (sortPairs F) ++ [[]]).length =
      (sortPairs F).length + 1 := by
    simp [yamlMarshalList_plain_length _ hplS]
  rw [hlen,
    yamlUnmarshalFuel_entries (sortPairs F) [] [[]] 1 hplS
      (by simpa using hndS)]
  rfl

/-- C1: in single-key mode, `applyChanges` writes only the named key to
the byte-valued store `Data` (every other key keeps its stored value),
and when the named key is absent from the edited mapping (the user
deleted its line) the `Data` store is left entirely unchanged: a no-op,
not an error. -/
theorem applyChanges_singleKey_frame (s : Secret) (key : String)
    (original edited : Smap String) (hkey : key ≠ "") :
    (∀ k, k ≠ key →
      lookupKey (applyChanges s key original edited).data k =
        lookupKey s.data k) ∧
    (lookupKey edited key = none →
      (applyChanges s key original edited).data = s.data) := by
  constructor
  · intro k hk
    unfold applyChanges
    rw [if_pos hkey]
    cases h : lookupKey edited key with
    | none => rfl
    | some v => simp [lookupKey_insertKey_ne _ _ _ _ hk]
  · intro h
    unfold applyChanges
    rw [if_pos hkey, h]

theorem applyChanges_singleKey_frame_witness :
    lookupKey (applyChanges ⟨[("password", "old"), ("token", "t")], []⟩
        "password" [("password", "old")] []).data "token" = some "t" ∧
    (applyChanges ⟨[("password", "old"), ("token", "t")], []⟩
        "password" [("password", "old")] []).data =
      [("password", "old"), ("token", "t")] :=
  ⟨(applyChanges_singleKey_frame _ _ _ _ (by decide)).1 "token" (by decide),
   (applyChanges_singleKey_frame _ _ _ _ (by decide)).2 (by decide)⟩

/-- C5: in whole-secret mode, `applyChanges` deletes from `Data` every
key that is in the original mapping but absent from the edited one, and
writes every edited entry (added or overwritten) with its re-encoded
value; keys in neither mapping keep their stored value. -/
theorem applyChanges_wholeSecret_diff (s : Secret) (original edited : Smap String)
    (hnd : nodupKeys edited) :
    ∀ k, lookupKey (applyChanges s "" original edited).data k =
      match lookupKey edited k with
      | some v => some v
      | none =>
          if containsKey original k then none else lookupKey s.data k := by
  intro k
  unfold applyChanges
  rw [if_neg (by simp)]
  simp only
  rw [lookupKey_foldl_insertKey _ _ _ hnd]
  cases h : lookupKey edited k with
  | some v => simp
  | none =>
    simp only
    rw [lookupKey_filter_keyPred
      (p := fun k => !(containsKey original k && !containsKey edited k))]
    have hce : containsKey edited k = false := by
      unfold containsKey
      rw [h]
      rfl
    by_cases ho : containsKey original k <;> simp [ho, hce]

theorem applyChanges_wholeSecret_diff_witness :
    lookupKey (applyChanges ⟨[("a", "1"), ("b", "2")], []⟩ ""
        [("a", "1"), ("b", "2")] [("a", "1"), ("c", "3")]).data "b" = none ∧
    lookupKey (applyChanges ⟨[("a", "1"), ("b", "2")], []⟩ ""
        [("a", "1"), ("b", "2")] [("a", "1"), ("c", "3")]).data "a" = some "1" ∧
    lookupKey (applyChanges ⟨[("a", "1"), ("b", "2")], []⟩ ""
        [("a", "1"), ("b", "2")] [("a", "1"), ("c", "3")]).data "c" = some "3" ∧
    (applyChanges ⟨[("a", "1"), ("b", "2")], []⟩ ""
        [("a", "1"), ("b", "2")] [("a", "1"), ("c", "3")]).data =
      [("a", "1"), ("c", "3")] :=
  ⟨(applyChanges_wholeSecret_diff _ _ _ (by decide) "b").trans (by decide),
   (applyChanges_wholeSecret_diff _ _ _ (by decide) "a").trans (by decide),
   (applyChanges_wholeSecret_diff _ _ _ (by decide) "c").trans (by decide),
   by decide⟩

/-- C2 counterexample: a legacy `StringData` field is NOT migrated into
the byte-valued store by `applyChanges`.  Concretely, a secret holding
`StringData = {x: v}` and `Data = {a: 1}`, edited in whole-secret mode
to `{a: 2}`, ends with no binding for `x` in `Data` at all (and
`StringData` cleared), so the field `x` is dropped, not migrated. -/
theorem stringData_not_migrated_cex :
    ("x", "v") ∈ (Secret.mk [("a", "1")] [("x", "v")]).stringData ∧
    lookupKey (applyChanges (Secret.mk [("a", "1")] [("x", "v")]) ""
        [("a", "1")] [("a", "2")]).data "x" = none ∧
    (applyChanges (Secret.mk [("a", "1")] [("x", "v")]) ""
        [("a", "1")] [("a", "2")]).stringData = [] := by
  decide

/-- C2 amended: on every edit that reaches the apply step, `StringData`
is unconditionally cleared, but its fields are not migrated into the
byte-valued store: in whole-secret mode a key absent from both the
stored `Data` and the edited mapping (in particular a `StringData`-only
field) has no binding in the resulting `Data` — it is discarded. -/
theorem applyChanges_clears_stringData (s : Secret) (key : String)
    (original edited : Smap String) :
    (applyChanges s key original edited).stringData = [] ∧
    (key = "" → ∀ k, lookupKey edited k = none → lookupKey s.data k = none →
      lookupKey (applyChanges s key original edited).data k = none) := by
  constructor
  · unfold applyChanges
    by_cases h : key ≠ ""
    · rw [if_pos h]
      cases lookupKey edited key <;> rfl
    · rw [if_neg h]
  · rintro rfl k he hsd
    unfold applyChanges
    rw [if_neg (by simp)]
    simp only
    rw [lookupKey_foldl_insertKey_of_none _ _ _ he,
      lookupKey_filter_keyPred
        (p := fun k => !(containsKey original k && !containsKey edited k))]
    split
    · exact hsd
    · rfl

theorem applyChanges_clears_stringData_witness :
    (applyChanges (Secret.mk [("a", "1")] [("x", "v")]) ""
        [("a", "1")] [("a", "2")]).stringData = [] ∧
    lookupKey (applyChanges (Secret.mk [("a", "1")] [("x", "v")]) ""
        [("a", "1")] [("a", "2")]).data "y" = none :=
  ⟨(applyChanges_clears_stringData _ _ _ _).1,
   (applyChanges_clears_stringData _ _ _ _).2 rfl "y" (by decide) (by decide)⟩

/-- C10: whole-secret extraction reads only the byte-valued store: a
secret with empty `Data` fails with the empty-secret-data error even
when `StringData` is non-empty; in single-key mode the named key is
looked up in `StringData` as a fallback when it is absent from `Data`. -/
theorem extractDecodedData_emptyData_and_fallback (s : Secret) (k v : String) :
    (s.data = [] → extractDecodedData "" s = .error .emptySecretData) ∧
    (k ≠ "" → lookupKey s.data k = none → lookupKey s.stringData k = some v →
      extractDecodedData k s = .ok [(k, v)]) := by
  constructor
  · intro h
    unfold extractDecodedData
    rw [if_neg (by simp)]
    simp [h]
  · intro hk h1 h2
    unfold extractDecodedData
    rw [if_pos hk]
    unfold extractSingleKey
    rw [h1, h2]

theorem extractDecodedData_emptyData_and_fallback_witness :
    extractDecodedData "" (Secret.mk [] [("x", "v")]) =
      .error .emptySecretData ∧
    extractDecodedData "x" (Secret.mk [] [("x", "v")]) = .ok [("x", "v")] :=
  ⟨(extractDecodedData_emptyData_and_fallback (Secret.mk [] [("x", "v")])
      "x" "v").1 rfl,
   (extractDecodedData_emptyData_and_fallback (Secret.mk [] [("x", "v")])
      "x" "v").2 (by decide) (by decide) (by decide)⟩

/-- C6: editor resolution follows the strict precedence explicit
`--editor` override, then `KUBE_EDITOR`, then `EDITOR`, then the first
program of the fixed ordered default list `vim, vi, nano, notepad`
found on the executable search path; when the override and both
environment variables are empty and no default candidate is on the
path, it fails with the no-editor-found error (`none`). -/
theorem resolveEditor_precedence (flag kube env : String)
    (onPath : String → Bool) :
    (flag ≠ "" → resolveEditor flag kube env onPath = some flag) ∧
    (flag = "" → kube ≠ "" → resolveEditor flag kube env onPath = some kube) ∧
    (flag = "" → kube = "" → env ≠ "" →
      resolveEditor flag kube env onPath = some env) ∧
    (flag = "" → kube = "" → env = "" →
      resolveEditor flag kube env onPath =
        ["vim", "vi", "nano", "notepad"].find? onPath) ∧
    (flag = "" → kube = "" → env = "" →
      (∀ c ∈ ["vim", "vi", "nano", "notepad"], onPath c = false) →
      resolveEditor flag kube env onPath = none) := by
  refine ⟨?_, ?_, ?_, ?_, ?_⟩
  · intro h
    unfold resolveEditor
    rw [if_pos h]
  · rintro rfl h
    unfold resolveEditor
    rw [if_neg (by simp), if_pos h]
  · rintro rfl rfl h
    unfold resolveEditor
    rw [if_neg (by simp), if_neg (by simp), if_pos h]
  · rintro rfl rfl rfl
    unfold resolveEditor
    rw [if_neg (by simp), if_neg (by simp), if_neg (by simp)]
  · rintro rfl rfl rfl hall
    unfold resolveEditor
    rw [if_neg (by simp), if_neg (by simp), if_neg (by simp)]
    rw [List.find?_eq_none]
    intro c hc
    simp [hall c hc]

theorem hasChanges_eq_false_of_perm (original edited : Smap String)
    (hnd : nodupKeys original) (hp : edited.Perm original) :
    hasChanges original edited = false := by
  unfold hasChanges
  rw [Bool.or_eq_false_iff]
  constructor
  · simp [hp.length_eq]
  · rw [List.any_eq_false]
    rintro ⟨k, v⟩ hkv
    rw [lookupKey_eq_some_of_mem original k v hnd (hp.subset hkv)]
    simp

/-- Equation lemma exposing one step of `yamlUnmarshalFuel` on a
nonempty document with nonzero fuel. -/
theorem yamlUnmarshalFuel_succ_cons (fuel : Nat) (l : Line) (rest : Doc)
    (acc : Smap String) :
    yamlUnmarshalFuel (Nat.succ fuel) (l :: rest) acc =
      (if (trimSpace l).isEmpty then yamlUnmarshalFuel fuel rest acc
      else if startsWithSpace l then none
      else
        match splitEntryChars l with
        | none => none
        | some (kRaw, after) =>
          let kChars := trimSpace kRaw
          if kChars.isEmpty then none
          else
            let k := String.mk kChars
            if containsKey acc k then none
            else
              match after with
              | [] => yamlUnmarshalFuel fuel rest (acc ++ [(k, "")])
              | c :: _ =>
                if c = ' ' then
                  let rv := trimSpace after
                  if rv = ['|', '-'] || rv = ['|'] then
                    let blk := rest.takeWhile blockCont
                    yamlUnmarshalFuel fuel (rest.drop blk.length)
                      (acc ++ [(k, String.mk (parseBlock blk (rv = ['|'])))])
                  else
                    yamlUnmarshalFuel fuel rest (acc ++ [(k, String.mk rv)])
                else none) := rfl

theorem yamlUnmarshalFuel_nodup :
    ∀ (fuel : Nat) (d : Doc) (acc m : Smap String),
      nodupKeys acc → yamlUnmarshalFuel fuel d acc = some m → nodupKeys m := by
  intro fuel
  induction fuel with
  | zero =>
    intro d acc m hnd h
    cases d with
    | nil =>
      injection h with h
      exact h ▸ hnd
    | cons l rest => simp [yamlUnmarshalFuel] at h
  | succ fuel ih =>
    intro d acc m hnd h
    cases d with
    | nil =>
      injection h with h
      exact h ▸ hnd
    | cons l rest =>
      rw [yamlUnmarshalFuel_succ_cons] at h
      by_cases h1 : (trimSpace l).isEmpty = true
      · rw [if_pos h1] at h
        exact ih rest acc m hnd h
      · rw [if_neg h1] at h
        by_cases h2 : startsWithSpace l = true
        · rw [if_pos h2] at h
          simp at h
        · rw [if_neg h2] at h
          cases hsp : splitEntryChars l with
          | none => rw [hsp] at h; simp at h
          | some kr =>
            obtain ⟨kRaw, after⟩ := kr
            rw [hsp] at h
            simp only at h
            by_cases h3 : (trimSpace kRaw).isEmpty = true
            · rw [if_pos h3] at h; simp at h
            · rw [if_neg h3] at h
              by_cases h4 : containsKey acc (String.mk (trimSpace kRaw)) = true
              · rw [if_pos h4] at h; simp at h
              · rw [if_neg h4] at h
                have h4' : containsKey acc (String.mk (trimSpace kRaw)) = false := by
                  cases hcb : containsKey acc (String.mk (trimSpace kRaw))
                  · rfl
                  · exact absurd hcb h4
                have hndv : ∀ val : String,
                    nodupKeys (acc ++ [(String.mk (trimSpace kRaw), val)]) :=
                  fun val => nodupKeys_append_singleton _ _ _ hnd h4'
                cases after with
                | nil => exact ih _ _ _ (hndv "") h
                | cons c rest' =>
                  simp only at h
                  by_cases h5 : c = ' '
                  · rw [if_pos h5] at h
                    by_cases h6 : (trimSpace (c :: rest') = ['|', '-'] ||
                        trimSpace (c :: rest') = ['|']) = true
                    · rw [if_pos h6] at h
                      exact ih _ _ _ (hndv _) h
                    · rw [if_neg h6] at h
                      exact ih _ _ _ (hndv _) h
                  · rw [if_neg h5] at h; simp at h

/-- C4: round-trip law.  For every field mapping with unique keys whose
keys and values are plain scalars (no characters needing escaping in
the serialization format), deserializing the serialization (header
comments included) yields the mapping sorted by key, which is the same
mapping: a permutation with pointwise equal lookups. -/
theorem deserialize_serialize_roundtrip (secretName ns : String)
    (F : Smap String) (hnd : nodupKeys F)
    (hpl : ∀ p ∈ F, plainScalar p.1 = true ∧ plainScalar p.2 = true) :
    parseEditedContent (createEditContent secretName ns F) =
      some (sortPairs F) ∧
    (sortPairs F).Perm F ∧
    ∀ k, lookupKey (sortPairs F) k = lookupKey F k :=
  ⟨parse_createEditContent secretName ns F hnd hpl, sortPairs_perm F,
   lookupKey_eq_of_perm F (sortPairs F) hnd (sortPairs_perm F)⟩

theorem deserialize_serialize_roundtrip_witness :
    parseEditedContent (createEditContent "s" "ns" [("b", "w"), ("a", "q")]) =
      some (sortPairs [("b", "w"), ("a", "q")]) ∧
    (sortPairs [("b", "w"), ("a", "q")]).Perm [("b", "w"), ("a", "q")] ∧
    sortPairs [("b", "w"), ("a", "q")] = [("a", "q"), ("b", "w")] :=
  ⟨(deserialize_serialize_roundtrip "s" "ns" _ (by decide) (by decide)).1,
   (deserialize_serialize_roundtrip "s" "ns" _ (by decide) (by decide)).2.1,
   by decide⟩

/-- C9: the comment filter of `parseEditedContent` removes every line
whose trimmed content starts with `#` wherever it occurs, with no
regard for YAML context — in particular inside a literal block scalar —
so the field mapping `{k: "a\n#b"}` serializes and parses back to
`{k: "a"}`: the `#b` line of the untouched value is lost. -/
theorem comment_stripping_ignores_yaml_context (pre post : Doc) (l : Line)
    (hc : isCommentLine l = true) :
    parseEditedContent (pre ++ l :: post) = parseEditedContent (pre ++ post) ∧
    parseEditedContent (createEditContent "s" "ns" [("k", "a\n#b")]) =
      some [("k", "a")] ∧
    ("a\n#b" : String) ≠ "a" := by
  refine ⟨?_, by decide, by decide⟩
  have hstrip : stripComments (pre ++ l :: post) = stripComments (pre ++ post) := by
    unfold stripComments
    simp [List.filter_append, List.filter_cons, hc]
  show yamlUnmarshal (stripComments (pre ++ l :: post)) =
    yamlUnmarshal (stripComments (pre ++ post))
  rw [hstrip]

theorem comment_stripping_ignores_yaml_context_witness :
    parseEditedContent (["a: q".data] ++ "# c".data :: []) =
      parseEditedContent (["a: q".data] ++ []) ∧
    parseEditedContent (createEditContent "s" "ns" [("k", "a\n#b")]) =
      some [("k", "a")] ∧
    ("a\n#b" : String) ≠ "a" :=
  comment_stripping_ignores_yaml_context ["a: q".data] [] "# c".data (by decide)

/-- C7 counterexample: a duplicated key in the edited document is NOT
parsed with last-occurrence-wins semantics; `parseEditedContent` fails
(yaml.v3 rejects duplicate mapping keys), so the document
`a: 1\na: 2` yields an error, not `{a: "2"}`. -/
theorem duplicate_key_last_wins_cex :
    parseEditedContent ["a: 1".data, "a: 2".data] = none ∧
    parseEditedContent ["a: 1".data, "a: 2".data] ≠ some [("a", "2")] := by
  decide

/-- C7 amended: a key appearing twice in the edited document's
non-comment text makes `parseEditedContent` fail with a parse error
(the modelled yaml.v3 duplicate-mapping-key error) instead of applying
last-key-wins: every successful parse has pairwise distinct keys. -/
theorem parse_success_no_duplicate_keys (d : Doc) (m : Smap String)
    (h : parseEditedContent d = some m) : nodupKeys m :=
  yamlUnmarshalFuel_nodup _ _ _ _ (by simp [nodupKeys]) h

theorem parse_success_no_duplicate_keys_witness : nodupKeys [("a", "1")] :=
  parse_success_no_duplicate_keys ["a: 1".data] [("a", "1")] (by decide)

/-- C3: when the temp file's content is byte-for-byte identical before
and after the editor session the workflow ends `cancelled`; when the
bytes differ but the parsed mapping equals the original decoded mapping
(e.g. only a comment line was edited) it ends with the distinct
`noChanges` outcome; in both cases the outcome is not `applied`, the
only outcome that performs an `Update` call on the secret
repository. -/
theorem run_cancelled_and_noChanges (secretName ns key : String) (s : Secret)
    (decoded : Smap String) (afterContent : Doc)
    (hex : extractDecodedData key s = .ok decoded)
    (hnd : nodupKeys decoded) :
    (afterContent = createEditContent secretName ns decoded →
      run secretName ns key s afterContent = .cancelled ∧
      ∀ u : Secret, run secretName ns key s afterContent ≠ .applied u) ∧
    (afterContent ≠ createEditContent secretName ns decoded →
      ∀ edited, parseEditedContent afterContent = some edited →
        edited.Perm decoded →
        run secretName ns key s afterContent = .noChanges ∧
        ∀ u : Secret, run secretName ns key s afterContent ≠ .applied u) := by
  constructor
  · intro h
    have hrun : run secretName ns key s afterContent = .cancelled := by
      unfold run
      rw [hex]
      simp [h]
    exact ⟨hrun, fun u => by rw [hrun]; simp⟩
  · intro h edited hpe hperm
    have hrun : run secretName ns key s afterContent = .noChanges := by
      unfold run
      rw [hex]
      simp [h, hpe, hasChanges_eq_false_of_perm decoded edited hnd hperm]
    exact ⟨hrun, fun u => by rw [hrun]; simp⟩

theorem run_cancelled_and_noChanges_witness :
    run "s" "ns" "" (Secret.mk [("b", "w"), ("a", "q")] [])
      (createEditContent "s" "ns" [("b", "w"), ("a", "q")]) =
        Outcome.cancelled ∧
    run "s" "ns" "" (Secret.mk [("b", "w"), ("a", "q")] [])
      ["a: q".data, "b: w".data] = Outcome.noChanges :=
  ⟨((run_cancelled_and_noChanges "s" "ns" ""
      (Secret.mk [("b", "w"), ("a", "q")] []) [("b", "w"), ("a", "q")]
      (createEditContent "s" "ns" [("b", "w"), ("a", "q")])
      rfl (by decide)).1 rfl).1,
   ((run_cancelled_and_noChanges "s" "ns" ""
      (Secret.mk [("b", "w"), ("a", "q")] []) [("b", "w"), ("a", "q")]
      ["a: q".data, "b: w".data]
      rfl (by decide)).2 (by decide) [("a", "q"), ("b", "w")] (by decide)
      (by decide)).1⟩

/-- C8: in single-key mode, requesting a key absent from both stores of
the secret fails at extraction time with the key-not-found error whose
payload is the sorted list of the secret's `Data` keys (the message
joins them with `", "`), and the whole workflow fails with that error
whatever the editor would have produced — before any editor or update
step. -/
theorem extractSingleKey_keyNotFound (s : Secret) (key : String)
    (hk : key ≠ "")
    (h1 : lookupKey s.data key = none)
    (h2 : lookupKey s.stringData key = none) :
    extractSingleKey key s =
      .error (.keyNotFound (sortStrings (s.data.map Prod.fst))) ∧
    (sortStrings (s.data.map Prod.fst)).Sorted (fun a b => strLe a b = true) ∧
    (sortStrings (s.data.map Prod.fst)).Perm (s.data.map Prod.fst) ∧
    ∀ (afterContent : Doc) (secretName ns : String),
      run secretName ns key s afterContent =
        .errKeyNotFound (sortStrings (s.data.map Prod.fst)) := by
  have hext : extractSingleKey key s =
      .error (.keyNotFound (sortStrings (s.data.map Prod.fst))) := by
    unfold extractSingleKey
    rw [h1, h2]
  refine ⟨hext, sortStrings_sorted _, sortStrings_perm _, ?_⟩
  intro afterContent secretName ns
  unfold run extractDecodedData
  rw [if_pos hk, hext]

theorem extractSingleKey_keyNotFound_witness :
    extractSingleKey "missing" (Secret.mk [("b", "vb"), ("a", "va")] []) =
      .error (.keyNotFound (sortStrings ["b", "a"])) ∧
    run "sec" "ns" "missing" (Secret.mk [("b", "vb"), ("a", "va")] []) [] =
      .errKeyNotFound (sortStrings ["b", "a"]) ∧
    sortStrings ["b", "a"] = ["a", "b"] ∧
    extractErrMessage "sec" "missing" (.keyNotFound ["a", "b"]) =
      "key \"missing\" not found in secret. Available keys: a, b" :=
  ⟨(extractSingleKey_keyNotFound (Secret.mk [("b", "vb"), ("a", "va")] [])
      "missing" (by decide) (by decide) (by decide)).1,
   (extractSingleKey_keyNotFound (Secret.mk [("b", "vb"), ("a", "va")] [])
      "missing" (by decide) (by decide) (by decide)).2.2.2 [] "sec" "ns",
   by decide,
   by decide⟩

theorem resolveEditor_precedence_witness :
    resolveEditor "" "" "nano" (fun _ => true) = some "nano" ∧
    resolveEditor "" "" "" (fun _ => false) = none :=
  ⟨(resolveEditor_precedence "" "" "nano" (fun _ => true)).2.2.1 rfl rfl
      (by decide),
   (resolveEditor_precedence "" "" "" (fun _ => false)).2.2.2.2 rfl rfl rfl
      (by intro c hc; rfl)⟩

end EditSecret
